import Mathlib

/-!
Verification of the macro-definition registry of `vscode_conan_init`
(`_MacroDefinitions` in `src/vscode_conan_init/__init__.py`) and of the
dependency-merge / user-override loops of `main`.

Python strings are modelled as Lean `String` (sequences of codepoints);
the Python `dict` backing the registry is modelled as an insertion-ordered
association list, matching CPython semantics for `get`, item assignment,
`del` and `values()`.
-/

namespace VSConanInit

/-- CPython `dict.get(k)`: the value of the first (and, under the
no-duplicate-keys invariant, only) entry with key `k`, or `None`. -/
def dictGet (l : List (String × String)) (k : String) : Option String :=
  match l with
  | [] => none
  | (k', v) :: t => if k' = k then some v else dictGet t k

/-- CPython `d[k] = v`: replace the value in place if the key is present
(preserving insertion order), otherwise append the new entry at the end. -/
def dictSet (l : List (String × String)) (k : String) (v : String) :
    List (String × String) :=
  match l with
  | [] => [(k, v)]
  | (k', v') :: t => if k' = k then (k', v) :: t else (k', v') :: dictSet t k v

/-- CPython `del d[k]`: drop the entry with key `k`. -/
def dictDel (l : List (String × String)) (k : String) :
    List (String × String) :=
  match l with
  | [] => []
  | (k', v') :: t => if k' = k then t else (k', v') :: dictDel t k

/-- CPython `list(d.values())` in insertion order. -/
def dictValues (l : List (String × String)) : List String :=
  l.map Prod.snd

/-- The state of a `_MacroDefinitions` object: its `_dict` field. -/
structure MacroDefinitions where
  dict : List (String × String)
deriving Repr, DecidableEq

/-- `_MacroDefinitions.__init__`: `self._dict = {}`. -/
def MacroDefinitions.empty : MacroDefinitions := ⟨[]⟩

/-- Python `definition.find("=")` restricted to a single character:
codepoint index of the first occurrence, `-1` when absent. -/
def strFind (l : List Char) (c : Char) (i : Nat) : Int :=
  match l with
  | [] => -1
  | c' :: t => if c' = c then (i : Int) else strFind t c (i + 1)

/-- `_MacroDefinitions._get_name`:
`equal_index = definition.find("=")`; if it is `-1` return the whole
definition, otherwise return the slice `definition[:equal_index]`. -/
def getName (definition : String) : String :=
  let equal_index := strFind definition.data '=' 0
  if equal_index = -1 then definition
  else ⟨definition.data.take equal_index.toNat⟩

/-- `_MacroDefinitions.add`: look the name up, overwrite the stored
definition, return the old value (`None` when absent). -/
def MacroDefinitions.add (self : MacroDefinitions) (definition : String) :
    Option String × MacroDefinitions :=
  let name := getName definition
  let old_value := dictGet self.dict name
  (old_value, ⟨dictSet self.dict name definition⟩)

/-- `_MacroDefinitions.remove`: look the name up; when a value is present
(`is not None`) delete the entry; return the old value. -/
def MacroDefinitions.remove (self : MacroDefinitions) (name : String) :
    Option String × MacroDefinitions :=
  let old_value := dictGet self.dict name
  if old_value ≠ none then (old_value, ⟨dictDel self.dict name⟩)
  else (old_value, self)

/-- Python string comparison `a <= b` on codepoint sequences:
elementwise by codepoint, first difference decides, a prefix sorts
before any extension. -/
def lexLe : List Char → List Char → Bool
  | [], _ => true
  | _ :: _, [] => false
  | a :: as, b :: bs => if a = b then lexLe as bs else decide (a < b)

/-- Python `a <= b` on strings. -/
def strLe (a b : String) : Bool :=
  lexLe a.data b.data

/-- The Python string order as a `Prop`-valued relation, for sorting. -/
def strLeR (a b : String) : Prop := strLe a b = true

instance : DecidableRel strLeR := fun a b => decEq (strLe a b) true

/-- `_MacroDefinitions.as_list`: copy the stored values into a fresh list,
sort that copy ascending (Python string order), and return it together
with the (untouched) object state. -/
def MacroDefinitions.as_list (self : MacroDefinitions) :
    List String × MacroDefinitions :=
  let defines := dictValues self.dict
  (defines.insertionSort strLeR, self)

/-- The dependency-merge loop of `main` over one dependency's `defines`
list: each definition is fed to `add`; when the returned old value
exists and differs from the new definition, a `RuntimeError` naming both
strings is raised. -/
def mergeDefines (macro_defs : MacroDefinitions) (defines : List String) :
    Except (String × String) MacroDefinitions :=
  match defines with
  | [] => .ok macro_defs
  | define :: rest =>
    let (old_value, macro_defs) := macro_defs.add define
    match old_value with
    | some old => if old ≠ define then .error (old, define)
                  else mergeDefines macro_defs rest
    | none => mergeDefines macro_defs rest

/-- The user-override loops of `main`: every `--define` is applied via
`add` (return value ignored), then every `--undefine` via `remove`. -/
def applyUser (macro_defs : MacroDefinitions) (defines undefines : List String) :
    MacroDefinitions :=
  let macro_defs := defines.foldl (fun d s => (d.add s).2) macro_defs
  undefines.foldl (fun d n => (d.remove n).2) macro_defs

/-- The keys of the backing dict, in insertion order. -/
def dictKeys (l : List (String × String)) : List String :=
  l.map Prod.fst

/-- Directly from the spec's words: the name is the part of the definition
before the first `=`; absent a `=`, the whole definition. -/
def takeUntilEq : List Char → List Char
  | [] => []
  | c :: t => if c = '=' then [] else c :: takeUntilEq t

/-- The invariant maintained by every registry operation: the backing dict
has pairwise-distinct keys, and every stored definition is keyed by its own
extracted name. -/
def Inv (d : MacroDefinitions) : Prop :=
  (dictKeys d.dict).Nodup ∧ ∀ p ∈ d.dict, getName p.2 = p.1

instance (d : MacroDefinitions) : Decidable (Inv d) :=
  inferInstanceAs
    (Decidable ((dictKeys d.dict).Nodup ∧ ∀ p ∈ d.dict, getName p.2 = p.1))

/-- One registry operation, as invoked by the program. -/
inductive Op where
  | add (definition : String)
  | remove (name : String)
  | asList

/-- The state transition of one registry operation. -/
def runOp (d : MacroDefinitions) : Op → MacroDefinitions
  | .add s => (d.add s).2
  | .remove n => (d.remove n).2
  | .asList => (d.as_list).2

/-- Run a sequence of operations from the empty registry. -/
def run (ops : List Op) : MacroDefinitions :=
  ops.foldl runOp MacroDefinitions.empty

/-! ### Order properties of the Python string comparison -/

theorem lexLe_total : ∀ a b : List Char, lexLe a b = true ∨ lexLe b a = true
  | [], _ => .inl rfl
  | _ :: _, [] => .inr rfl
  | a :: as, b :: bs => by
    rcases eq_or_ne a b with h | h
    · subst h
      simpa [lexLe] using lexLe_total as bs
    · rcases lt_trichotomy a b with hlt | heq | hgt
      · exact .inl (by simp [lexLe, h, hlt])
      · exact absurd heq h
      · exact .inr (by simp [lexLe, h.symm, hgt])

theorem lexLe_trans :
    ∀ a b c : List Char, lexLe a b = true → lexLe b c = true → lexLe a c = true
  | [], _, _, _, _ => rfl
  | _ :: _, [], _, h, _ => by simp [lexLe] at h
  | _ :: _, _ :: _, [], _, h => by simp [lexLe] at h
  | a :: as, b :: bs, c :: cs, h₁, h₂ => by
    rcases eq_or_ne a b with hab | hab
    · subst hab
      rcases eq_or_ne a c with hac | hac
      · subst hac
        simp only [lexLe, if_pos rfl] at h₁ h₂ ⊢
        exact lexLe_trans as bs cs h₁ h₂
      · simpa [lexLe, hac] using h₂
    · have hlt : a < b := by simpa [lexLe, hab] using h₁
      rcases eq_or_ne b c with hbc | hbc
      · subst hbc
        simp [lexLe, hab, hlt]
      · have hlt' : b < c := by simpa [lexLe, hbc] using h₂
        have : a < c := lt_trans hlt hlt'
        simp [lexLe, ne_of_lt this, this]

theorem lexLe_antisymm :
    ∀ a b : List Char, lexLe a b = true → lexLe b a = true → a = b
  | [], [], _, _ => rfl
  | [], _ :: _, _, h => by simp [lexLe] at h
  | _ :: _, [], h, _ => by simp [lexLe] at h
  | a :: as, b :: bs, h₁, h₂ => by
    rcases eq_or_ne a b with hab | hab
    · subst hab
      simp only [lexLe, if_pos rfl] at h₁ h₂
      exact congrArg (a :: ·) (lexLe_antisymm as bs h₁ h₂)
    · have hlt : a < b := by simpa [lexLe, hab] using h₁
      have hlt' : b < a := by simpa [lexLe, hab.symm] using h₂
      exact absurd hlt' (lt_asymm hlt)

instance : IsTotal String strLeR :=
  ⟨fun a b => lexLe_total a.data b.data⟩

instance : IsTrans String strLeR :=
  ⟨fun a b c => lexLe_trans a.data b.data c.data⟩

instance : IsAntisymm String strLeR :=
  ⟨fun a b h₁ h₂ => by
    cases a; cases b
    exact congrArg String.mk (lexLe_antisymm _ _ h₁ h₂)⟩

/-! ### Dictionary lemmas -/

theorem dictGet_eq_none {l : List (String × String)} {k : String} :
    dictGet l k = none ↔ k ∉ dictKeys l := by
  induction l with
  | nil => simp [dictGet, dictKeys]
  | cons p t ih =>
    obtain ⟨k', v⟩ := p
    simp only [dictGet, dictKeys, List.map_cons, List.mem_cons, not_or] at ih ⊢
    by_cases h : k' = k
    · subst h
      simp
    · rw [if_neg h]
      constructor
      · intro hnone
        exact ⟨fun he => h he.symm, ih.1 hnone⟩
      · exact fun hh => ih.2 hh.2

theorem dictGet_dictSet_self (l : List (String × String)) (k v : String) :
    dictGet (dictSet l k v) k = some v := by
  induction l with
  | nil => simp [dictGet, dictSet]
  | cons p t ih =>
    obtain ⟨k', v'⟩ := p
    by_cases h : k' = k <;> simp [dictGet, dictSet, h, ih]

theorem dictGet_dictSet_ne {l : List (String × String)} {m k : String}
    (h : m ≠ k) (v : String) : dictGet (dictSet l k v) m = dictGet l m := by
  induction l with
  | nil => simp [dictGet, dictSet, Ne.symm h]
  | cons p t ih =>
    obtain ⟨k', v'⟩ := p
    by_cases hk : k' = k
    · subst hk
      simp [dictGet, dictSet, Ne.symm h]
    · by_cases hm : k' = m
      · subst hm
        simp [dictGet, dictSet, hk]
      · simp [dictGet, dictSet, hk, hm, ih]

theorem mem_dictKeys_dictSet {l : List (String × String)} {m k v : String} :
    m ∈ dictKeys (dictSet l k v) ↔ m ∈ dictKeys l ∨ m = k := by
  induction l with
  | nil => simp [dictSet, dictKeys]
  | cons p t ih =>
    obtain ⟨k', v'⟩ := p
    by_cases h : k' = k
    · subst h
      rw [show dictSet ((k', v') :: t) k' v = (k', v) :: t from by simp [dictSet]]
      simp only [dictKeys, List.map_cons, List.mem_cons]
      tauto
    · rw [show dictSet ((k', v') :: t) k v = (k', v') :: dictSet t k v from by
        simp [dictSet, h]]
      simp only [dictKeys, List.map_cons, List.mem_cons] at ih ⊢
      rw [ih]
      tauto

theorem dictKeys_dictSet_nodup {l : List (String × String)} {k v : String}
    (h : (dictKeys l).Nodup) : (dictKeys (dictSet l k v)).Nodup := by
  induction l with
  | nil => simp [dictSet, dictKeys]
  | cons p t ih =>
    obtain ⟨k', v'⟩ := p
    simp only [dictKeys, List.map_cons, List.nodup_cons] at h
    by_cases hk : k' = k
    · subst hk
      rw [show dictSet ((k', v') :: t) k' v = (k', v) :: t from by simp [dictSet]]
      simp only [dictKeys, List.map_cons, List.nodup_cons]
      exact h
    · rw [show dictSet ((k', v') :: t) k v = (k', v') :: dictSet t k v from by
        simp [dictSet, hk]]
      simp only [dictKeys, List.map_cons, List.nodup_cons]
      refine ⟨fun hmem => ?_, ih h.2⟩
      rcases (mem_dictKeys_dictSet).1 hmem with hmem | hmem
      · exact h.1 hmem
      · exact hk hmem

theorem mem_dictSet {l : List (String × String)} {p : String × String}
    {k v : String} (h : p ∈ dictSet l k v) : p ∈ l ∨ p = (k, v) := by
  induction l with
  | nil => simpa [dictSet] using h
  | cons q t ih =>
    obtain ⟨k', v'⟩ := q
    by_cases hk : k' = k
    · rcases (by simpa [dictSet, hk] using h : p = (k', v) ∨ p ∈ t) with h | h
      · exact .inr (by simp [h, hk])
      · exact .inl (List.mem_cons_of_mem _ h)
    · rcases (by simpa [dictSet, hk] using h : p = (k', v') ∨ p ∈ dictSet t k v)
        with h | h
      · exact .inl (by simp [h])
      · rcases ih h with h | h
        · exact .inl (List.mem_cons_of_mem _ h)
        · exact .inr h

theorem dictDel_sublist (l : List (String × String)) (k : String) :
    List.Sublist (dictDel l k) l := by
  induction l with
  | nil => simp [dictDel]
  | cons p t ih =>
    obtain ⟨k', v'⟩ := p
    by_cases h : k' = k
    · rw [show dictDel ((k', v') :: t) k = t from by simp [dictDel, h]]
      exact List.sublist_cons_self _ _
    · rw [show dictDel ((k', v') :: t) k = (k', v') :: dictDel t k from by
        simp [dictDel, h]]
      exact List.Sublist.cons₂ _ ih

theorem dictGet_dictDel_ne {l : List (String × String)} {m k : String}
    (h : m ≠ k) : dictGet (dictDel l k) m = dictGet l m := by
  induction l with
  | nil => simp [dictDel]
  | cons p t ih =>
    obtain ⟨k', v'⟩ := p
    by_cases hk : k' = k
    · subst hk
      simp [dictDel, dictGet, Ne.symm h]
    · by_cases hm : k' = m
      · subst hm
        simp [dictDel, dictGet, hk]
      · simp [dictDel, dictGet, hk, hm, ih]

theorem dictGet_dictDel_self {l : List (String × String)} {k : String}
    (h : (dictKeys l).Nodup) : dictGet (dictDel l k) k = none := by
  induction l with
  | nil => simp [dictDel, dictGet]
  | cons p t ih =>
    obtain ⟨k', v'⟩ := p
    simp only [dictKeys, List.map_cons, List.nodup_cons] at h
    by_cases hk : k' = k
    · subst hk
      exact dictGet_eq_none.2 (by simpa [dictDel, dictKeys] using h.1)
    · simp [dictDel, dictGet, hk, ih h.2]

theorem dictGet_dictDel_none {l : List (String × String)} {m k : String}
    (h : dictGet l k = none) : dictGet (dictDel l m) k = none := by
  refine dictGet_eq_none.2 fun hmem => dictGet_eq_none.1 h ?_
  simp only [dictKeys] at hmem ⊢
  obtain ⟨p, hp, hpk⟩ := List.mem_map.1 hmem
  exact List.mem_map.2 ⟨p, (dictDel_sublist l m).mem hp, hpk⟩

theorem mem_dictDel_ne {l : List (String × String)} {p : String × String}
    {k : String} (hnd : (dictKeys l).Nodup) (h : p ∈ dictDel l k) : p.1 ≠ k := by
  induction l with
  | nil => simp [dictDel] at h
  | cons q t ih =>
    obtain ⟨k', v'⟩ := q
    simp only [dictKeys, List.map_cons, List.nodup_cons] at hnd
    by_cases hk : k' = k
    · subst hk
      have hpt : p ∈ t := by
        rw [show dictDel ((k', v') :: t) k' = t from by simp [dictDel]] at h
        exact h
      intro hpk
      apply hnd.1
      have hmem : p.1 ∈ List.map Prod.fst t := List.mem_map.2 ⟨p, hpt, rfl⟩
      rwa [hpk] at hmem
    · have h' : p = (k', v') ∨ p ∈ dictDel t k := by
        rw [show dictDel ((k', v') :: t) k = (k', v') :: dictDel t k from by
          simp [dictDel, hk]] at h
        exact List.mem_cons.1 h
      rcases h' with h' | h'
      · rw [h']
        exact hk
      · exact ih hnd.2 h'

theorem dictGet_append (l m : List (String × String)) (k : String) :
    dictGet (l ++ m) k =
      match dictGet l k with
      | some v => some v
      | none => dictGet m k := by
  induction l with
  | nil => simp [dictGet]
  | cons p t ih =>
    obtain ⟨k', v'⟩ := p
    by_cases h : k' = k <;> simp [dictGet, h, ih]

theorem dictSet_of_get_none {l : List (String × String)} {k : String}
    (h : dictGet l k = none) (v : String) : dictSet l k v = l ++ [(k, v)] := by
  induction l with
  | nil => simp [dictSet]
  | cons p t ih =>
    obtain ⟨k', v'⟩ := p
    by_cases hk : k' = k
    · simp [dictGet, hk] at h
    · simp only [dictGet, if_pos, if_neg hk] at h
      simp [dictSet, hk, ih h]

/-! ### Equation lemmas for the registry operations -/

theorem add_eq (d : MacroDefinitions) (s : String) :
    d.add s = (dictGet d.dict (getName s), ⟨dictSet d.dict (getName s) s⟩) :=
  rfl

theorem remove_eq_of_none {d : MacroDefinitions} {n : String}
    (h : dictGet d.dict n = none) : d.remove n = (none, d) := by
  simp [MacroDefinitions.remove, h]

theorem remove_eq_of_some {d : MacroDefinitions} {n v : String}
    (h : dictGet d.dict n = some v) :
    d.remove n = (some v, ⟨dictDel d.dict n⟩) := by
  simp [MacroDefinitions.remove, h]

theorem as_list_fst (d : MacroDefinitions) :
    (d.as_list).1 = (dictValues d.dict).insertionSort strLeR :=
  rfl

theorem as_list_perm (d : MacroDefinitions) :
    (d.as_list).1.Perm (dictValues d.dict) :=
  List.perm_insertionSort strLeR _

theorem as_list_sorted (d : MacroDefinitions) :
    (d.as_list).1.Sorted strLeR :=
  List.sorted_insertionSort strLeR _

/-! ### The registry invariant -/

theorem Inv_empty : Inv MacroDefinitions.empty := by
  constructor <;> simp [MacroDefinitions.empty, dictKeys]

theorem Inv_add {d : MacroDefinitions} (h : Inv d) (s : String) :
    Inv (d.add s).2 := by
  obtain ⟨h₁, h₂⟩ := h
  rw [add_eq]
  constructor
  · exact dictKeys_dictSet_nodup h₁
  · intro p hp
    rcases mem_dictSet hp with hp | hp
    · exact h₂ p hp
    · rw [hp]

theorem Inv_remove {d : MacroDefinitions} (h : Inv d) (n : String) :
    Inv (d.remove n).2 := by
  obtain ⟨h₁, h₂⟩ := h
  rcases hg : dictGet d.dict n with _ | v
  · rw [remove_eq_of_none hg]
    exact ⟨h₁, h₂⟩
  · rw [remove_eq_of_some hg]
    constructor
    · exact List.Nodup.sublist ((dictDel_sublist _ _).map Prod.fst) h₁
    · intro p hp
      exact h₂ p ((dictDel_sublist _ _).subset hp)

theorem names_nodup {d : MacroDefinitions} (h : Inv d) :
    (((d.as_list).1).map getName).Nodup := by
  have hmapeq : (dictValues d.dict).map getName = dictKeys d.dict := by
    unfold dictValues dictKeys
    rw [List.map_map]
    exact List.map_congr_left fun p hp => h.2 p hp
  have hvals : ((dictValues d.dict).map getName).Nodup := hmapeq ▸ h.1
  exact (((as_list_perm d).map getName).nodup_iff).2 hvals

theorem absent_name_asList {d : MacroDefinitions} {n : String} (h : Inv d)
    (hg : dictGet d.dict n = none) :
    ∀ s ∈ (d.as_list).1, getName s ≠ n := by
  intro s hs
  have hsv : s ∈ dictValues d.dict := (as_list_perm d).mem_iff.1 hs
  obtain ⟨p, hp, rfl⟩ := List.mem_map.1 hsv
  rw [h.2 p hp]
  intro hpk
  refine dictGet_eq_none.1 hg ?_
  rw [← hpk]
  exact List.mem_map.2 ⟨p, hp, rfl⟩

/-! ### Lemmas about `strFind` and `getName` -/

theorem strFind_ge (l : List Char) (c : Char) :
    ∀ i : Nat, strFind l c i = -1 ∨ (i : Int) ≤ strFind l c i := by
  induction l with
  | nil => intro i; exact .inl rfl
  | cons a t ih =>
    intro i
    by_cases h : a = c
    · simp [strFind, h]
    · rw [show strFind (a :: t) c i = strFind t c (i + 1) from by
        simp [strFind, h]]
      rcases ih (i + 1) with h' | h'
      · exact .inl h'
      · refine .inr (le_trans ?_ h')
        push_cast
        omega

theorem strFind_shift (l : List Char) (c : Char) :
    ∀ i : Nat, strFind l c (i + 1) =
      if strFind l c i = -1 then -1 else strFind l c i + 1 := by
  induction l with
  | nil => intro i; simp [strFind]
  | cons a t ih =>
    intro i
    by_cases h : a = c
    · simp only [strFind, if_pos h]
      rw [if_neg (by omega : ((i : Int)) ≠ -1)]
      push_cast
      ring
    · simp only [strFind, if_neg h]
      rw [ih, ih]

theorem getName_core (l : List Char) :
    (if strFind l '=' 0 = -1 then l else l.take (strFind l '=' 0).toNat) =
      takeUntilEq l := by
  induction l with
  | nil => simp [strFind, takeUntilEq]
  | cons a t ih =>
    by_cases h : a = '='
    · rw [show strFind (a :: t) '=' 0 = 0 from by simp [strFind, h]]
      rw [if_neg (by decide), show takeUntilEq (a :: t) = [] from by
        simp [takeUntilEq, h]]
      simp
    · rw [show strFind (a :: t) '=' 0 = strFind t '=' 1 from by
        simp [strFind, h]]
      have hs := strFind_shift t '=' 0
      simp only [Nat.zero_add] at hs
      rw [hs]
      rw [show takeUntilEq (a :: t) = a :: takeUntilEq t from by
        simp [takeUntilEq, h]]
      by_cases hf : strFind t '=' 0 = -1
      · rw [if_pos hf, if_pos rfl]
        rw [if_pos hf] at ih
        rw [← ih]
      · have hge : (0 : Int) ≤ strFind t '=' 0 :=
          (strFind_ge t '=' 0).resolve_left hf
        rw [if_neg hf, if_neg (by omega : strFind t '=' 0 + 1 ≠ -1)]
        rw [show (strFind t '=' 0 + 1).toNat = (strFind t '=' 0).toNat + 1 from
          by omega]
        rw [List.take_succ_cons]
        rw [if_neg hf] at ih
        rw [ih]

theorem getName_spec (d : String) : getName d = ⟨takeUntilEq d.data⟩ := by
  obtain ⟨l⟩ := d
  have core := getName_core l
  by_cases hf : strFind l '=' 0 = -1
  · rw [if_pos hf] at core
    show (if strFind l '=' 0 = -1 then String.mk l
      else ⟨l.take (strFind l '=' 0).toNat⟩) = ⟨takeUntilEq l⟩
    rw [if_pos hf, ← core]
  · rw [if_neg hf] at core
    show (if strFind l '=' 0 = -1 then String.mk l
      else ⟨l.take (strFind l '=' 0).toNat⟩) = ⟨takeUntilEq l⟩
    rw [if_neg hf, ← core]

/-! ### Unfolding lemmas for the `main` loops -/

theorem mergeDefines_cons (d : MacroDefinitions) (x : String)
    (rest : List String) :
    mergeDefines d (x :: rest) =
      match (d.add x).1 with
      | some old => if old ≠ x then .error (old, x)
                    else mergeDefines (d.add x).2 rest
      | none => mergeDefines (d.add x).2 rest :=
  rfl

theorem applyUser_nil (d : MacroDefinitions) (undefines : List String) :
    applyUser d [] undefines =
      undefines.foldl (fun d n => (d.remove n).2) d :=
  rfl

theorem applyUser_cons (d : MacroDefinitions) (x : String)
    (defines undefines : List String) :
    applyUser d (x :: defines) undefines =
      applyUser (d.add x).2 defines undefines :=
  rfl

theorem applyUser_nil_nil (d : MacroDefinitions) : applyUser d [] [] = d :=
  rfl

/-! ### Invariant preservation -/

theorem Inv_runOp {d : MacroDefinitions} (h : Inv d) (op : Op) :
    Inv (runOp d op) := by
  cases op with
  | add s => exact Inv_add h s
  | remove n => exact Inv_remove h n
  | asList => exact h

theorem Inv_foldl_runOp (ops : List Op) :
    ∀ {d : MacroDefinitions}, Inv d → Inv (ops.foldl runOp d) := by
  induction ops with
  | nil => exact fun h => h
  | cons op rest ih => exact fun h => ih (Inv_runOp h op)

theorem Inv_run (ops : List Op) : Inv (run ops) :=
  Inv_foldl_runOp ops Inv_empty

theorem Inv_foldl_add (defines : List String) :
    ∀ {d : MacroDefinitions}, Inv d →
      Inv (defines.foldl (fun d s => (d.add s).2) d) := by
  induction defines with
  | nil => exact fun h => h
  | cons s rest ih => exact fun h => ih (Inv_add h s)

theorem Inv_foldl_remove (undefines : List String) :
    ∀ {d : MacroDefinitions}, Inv d →
      Inv (undefines.foldl (fun d n => (d.remove n).2) d) := by
  induction undefines with
  | nil => exact fun h => h
  | cons n rest ih => exact fun h => ih (Inv_remove h n)

theorem Inv_applyUser {d : MacroDefinitions} (h : Inv d)
    (defines undefines : List String) : Inv (applyUser d defines undefines) :=
  Inv_foldl_remove undefines (Inv_foldl_add defines h)

/-! ### Absence is preserved by the `--undefine` loop -/

theorem remove_absent {d : MacroDefinitions} {n : String}
    (h : dictGet d.dict n = none) (m : String) :
    dictGet ((d.remove m).2).dict n = none := by
  rcases hg : dictGet d.dict m with _ | v
  · rw [remove_eq_of_none hg]
    exact h
  · rw [remove_eq_of_some hg]
    exact dictGet_dictDel_none h

theorem foldl_remove_absent (undefines : List String) :
    ∀ {d : MacroDefinitions} {n : String}, dictGet d.dict n = none →
      dictGet ((undefines.foldl (fun d n => (d.remove n).2) d)).dict n =
        none := by
  induction undefines with
  | nil => exact fun h => h
  | cons m rest ih => exact fun h => ih (remove_absent h m)

theorem remove_self_absent {d : MacroDefinitions} (h : Inv d) (n : String) :
    dictGet ((d.remove n).2).dict n = none := by
  rcases hg : dictGet d.dict n with _ | v
  · rw [remove_eq_of_none hg]
    exact hg
  · rw [remove_eq_of_some hg]
    exact dictGet_dictDel_self h.1

theorem foldl_remove_mem_absent (undefines : List String) :
    ∀ {d : MacroDefinitions}, Inv d → ∀ n ∈ undefines,
      dictGet ((undefines.foldl (fun d n => (d.remove n).2) d)).dict n =
        none := by
  induction undefines with
  | nil => intro d _ n hn; exact absurd hn (List.not_mem_nil n)
  | cons m rest ih =>
    intro d h n hn
    rcases List.mem_cons.1 hn with hn | hn
    · subst hn
      exact foldl_remove_absent rest (remove_self_absent h n)
    · exact ih (Inv_remove h m) n hn

/-! ### The `--define` loop on fresh names appends in order -/

theorem foldl_add_dict (defines : List String) :
    ∀ d : MacroDefinitions,
      (∀ s ∈ defines, dictGet d.dict (getName s) = none) →
      (defines.map getName).Nodup →
      (applyUser d defines []).dict =
        d.dict ++ defines.map (fun s => (getName s, s)) := by
  induction defines with
  | nil => intro d _ _; simp [applyUser]
  | cons x rest ih =>
    intro d habs hnd
    rw [applyUser_cons]
    have hx : dictGet d.dict (getName x) = none :=
      habs x (List.mem_cons_self x rest)
    have hdict : ((d.add x).2).dict = d.dict ++ [(getName x, x)] := by
      rw [add_eq]
      exact dictSet_of_get_none hx x
    simp only [List.map_cons, List.nodup_cons] at hnd
    have habs' : ∀ s ∈ rest, dictGet ((d.add x).2).dict (getName s) = none := by
      intro s hs
      rw [hdict, dictGet_append]
      rw [habs s (List.mem_cons_of_mem x hs)]
      have hne : getName x ≠ getName s := by
        intro he
        exact hnd.1 (he ▸ List.mem_map.2 ⟨s, hs, rfl⟩)
      simp [dictGet, hne]
    rw [ih (d.add x).2 habs' hnd.2, hdict]
    simp [List.append_assoc]

/-! ### takeUntilEq lemmas -/

theorem takeUntilEq_of_not_mem : ∀ {l : List Char}, '=' ∉ l →
    takeUntilEq l = l
  | [], _ => rfl
  | c :: t, h => by
    have hc : c ≠ '=' := fun he => h (he ▸ List.mem_cons_self c t)
    rw [show takeUntilEq (c :: t) = c :: takeUntilEq t from by
      simp [takeUntilEq, hc]]
    rw [takeUntilEq_of_not_mem fun hm => h (List.mem_cons_of_mem c hm)]

theorem takeUntilEq_append : ∀ {n : List Char}, '=' ∉ n → ∀ v : List Char,
    takeUntilEq (n ++ '=' :: v) = n
  | [], _, v => by simp [takeUntilEq]
  | c :: t, h, v => by
    have hc : c ≠ '=' := fun he => h (he ▸ List.mem_cons_self c t)
    rw [List.cons_append]
    rw [show takeUntilEq (c :: (t ++ '=' :: v)) =
      c :: takeUntilEq (t ++ '=' :: v) from by simp [takeUntilEq, hc]]
    rw [takeUntilEq_append (fun hm => h (List.mem_cons_of_mem c hm)) v]

/-! ### Claim theorems -/

/-- C2: `add` computes the name via the extraction function, overwrites the
stored definition for that name unconditionally, returns the previous full
definition when one existed and the absent sentinel (`none`) otherwise, and
a second `add` for the same name returns the first definition. -/
theorem claim2_add_spec (d : MacroDefinitions) (D : String) :
    (d.add D).1 = dictGet d.dict (getName D)
    ∧ dictGet ((d.add D).2).dict (getName D) = some D
    ∧ (∀ m, m ≠ getName D → dictGet ((d.add D).2).dict m = dictGet d.dict m)
    ∧ (dictGet d.dict (getName D) = none → (d.add D).1 = none)
    ∧ (∀ D', getName D' = getName D → ((d.add D).2.add D').1 = some D) := by
  refine ⟨rfl, ?_, ?_, ?_, ?_⟩
  · rw [add_eq]
    exact dictGet_dictSet_self _ _ _
  · intro m hm
    rw [add_eq]
    exact dictGet_dictSet_ne hm D
  · intro hg
    exact hg
  · intro D' hD'
    show dictGet ((d.add D).2).dict (getName D') = some D
    rw [hD', add_eq]
    exact dictGet_dictSet_self _ _ _

/-- Witness for C2 at concrete inputs: a fresh `add` returns `none` and a
second `add` of a different definition with the same name returns the
first definition. -/
theorem claim2_add_spec_witness :
    (MacroDefinitions.empty.add "foo=bar").1 = none
    ∧ ((MacroDefinitions.empty.add "foo=bar").2.add "foo").1 =
        some "foo=bar" :=
  ⟨(claim2_add_spec MacroDefinitions.empty "foo=bar").2.2.2.1 rfl,
    (claim2_add_spec MacroDefinitions.empty "foo=bar").2.2.2.2 "foo"
      (by decide)⟩

/-- C3: `as_list` returns the stored full definition strings sorted
ascending by codepoint order on the whole string; inserting
`"a=1"`, `"c=2"`, `"b=3"` yields `["a=1", "b=3", "c=2"]`; a fresh
registry's `as_list` is empty. -/
theorem claim3_as_list_sorted :
    (∀ d : MacroDefinitions,
      (d.as_list).1.Sorted strLeR ∧ (d.as_list).1.Perm (dictValues d.dict))
    ∧ ((((MacroDefinitions.empty.add "a=1").2.add "c=2").2.add
        "b=3").2.as_list).1 = ["a=1", "b=3", "c=2"]
    ∧ (MacroDefinitions.empty.as_list).1 = [] := by
  refine ⟨fun d => ⟨as_list_sorted d, as_list_perm d⟩, by decide, rfl⟩

/-- C4: `extract_name` returns the part of the definition before the first
`=` when a `=` is present (even when the value contains `=`), and the whole
definition otherwise (the empty string included); it is a total function. -/
theorem claim4_extract_name :
    (∀ d : String, getName d = ⟨takeUntilEq d.data⟩)
    ∧ (∀ n v : String, '=' ∉ n.data → getName (n ++ "=" ++ v) = n)
    ∧ (∀ d : String, '=' ∉ d.data → getName d = d)
    ∧ getName "" = "" := by
  refine ⟨getName_spec, ?_, ?_, rfl⟩
  · intro n v h
    obtain ⟨a⟩ := n
    obtain ⟨b⟩ := v
    rw [getName_spec]
    rw [show (String.mk a ++ "=" ++ ⟨b⟩).data = (a ++ ['=']) ++ b from rfl]
    rw [List.append_assoc, List.singleton_append, takeUntilEq_append h b]
  · intro d h
    obtain ⟨l⟩ := d
    rw [getName_spec, takeUntilEq_of_not_mem h]

/-- Witness for C4 at concrete inputs: `extract_name("N=V=W") = "N"` and
`extract_name("foo") = "foo"`. -/
theorem claim4_extract_name_witness :
    getName ("N" ++ "=" ++ "V=W") = "N" ∧ getName "foo" = "foo" :=
  ⟨claim4_extract_name.2.1 "N" "V=W" (by decide),
    claim4_extract_name.2.2.1 "foo" (by decide)⟩

/-- C5: `remove` of an absent name returns the absent sentinel and leaves
the registry completely unchanged; `remove` of a present name returns the
stored definition, after which the name is absent (from lookups and from
`as_list`) while other names are untouched. `remove` is total. -/
theorem claim5_remove_spec (d : MacroDefinitions) (n : String) (h : Inv d) :
    (dictGet d.dict n = none → d.remove n = (none, d))
    ∧ ∀ v, dictGet d.dict n = some v →
        (d.remove n).1 = some v
        ∧ dictGet ((d.remove n).2).dict n = none
        ∧ (∀ m, m ≠ n → dictGet ((d.remove n).2).dict m = dictGet d.dict m)
        ∧ ∀ s ∈ (((d.remove n).2).as_list).1, getName s ≠ n := by
  constructor
  · exact fun hg => remove_eq_of_none hg
  · intro v hg
    have hinv : Inv ((d.remove n).2) := Inv_remove h n
    rw [remove_eq_of_some hg] at hinv ⊢
    exact ⟨rfl, dictGet_dictDel_self h.1,
      fun m hm => dictGet_dictDel_ne hm,
      absent_name_asList hinv (dictGet_dictDel_self h.1)⟩

/-- Witness for C5 at a concrete registry: removing a present name returns
its definition, and removing an absent name returns `none` and leaves the
registry unchanged. -/
theorem claim5_remove_spec_witness :
    ((⟨[("foo", "foo=bar")]⟩ : MacroDefinitions).remove "foo").1 =
        some "foo=bar"
    ∧ (⟨[("foo", "foo=bar")]⟩ : MacroDefinitions).remove "baz" =
        (none, ⟨[("foo", "foo=bar")]⟩) :=
  ⟨((claim5_remove_spec ⟨[("foo", "foo=bar")]⟩ "foo" (by decide)).2
      "foo=bar" rfl).1,
    (claim5_remove_spec ⟨[("foo", "foo=bar")]⟩ "baz" (by decide)).1 rfl⟩

/-- C6: after any sequence of operations from the empty registry, the
extracted names of the definitions returned by `as_list` are pairwise
distinct — at most one live definition per name. -/
theorem claim6_unique_names (ops : List Op) :
    ((((run ops).as_list).1).map getName).Nodup :=
  names_nodup (Inv_run ops)

/-- C8: `as_list` does not mutate the registry, and two consecutive calls
with no intervening mutation return identical results. -/
theorem claim8_as_list_pure (d : MacroDefinitions) :
    ((d.as_list).2 = d) ∧ (((d.as_list).2.as_list).1 = (d.as_list).1) :=
  ⟨rfl, rfl⟩

/-- C10: the empty definition string is a first-class entry: `add("")` on a
fresh registry returns the absent sentinel and stores `""` under name `""`,
and `remove("")` then returns `""` (not the sentinel) and empties the
registry. -/
theorem claim10_empty_definition :
    (MacroDefinitions.empty.add "").1 = none
    ∧ (((MacroDefinitions.empty.add "").2).as_list).1 = [""]
    ∧ (((MacroDefinitions.empty.add "").2).remove "").1 = some ""
    ∧ (((((MacroDefinitions.empty.add "").2).remove "").2).as_list).1 =
        [] := by
  refine ⟨rfl, by decide, by decide, by decide⟩

theorem empty_dict : MacroDefinitions.empty.dict = [] :=
  rfl

/-- C7: insertion order is irrelevant — two permuted sequences of `add`
operations whose definitions have pairwise distinct extracted names produce
registries with equal `as_list` output. -/
theorem claim7_order_irrelevant (defs₁ defs₂ : List String)
    (hp : defs₁.Perm defs₂) (hn : (defs₁.map getName).Nodup) :
    ((applyUser MacroDefinitions.empty defs₁ []).as_list).1 =
      ((applyUser MacroDefinitions.empty defs₂ []).as_list).1 := by
  have hn₂ : (defs₂.map getName).Nodup := ((hp.map getName).nodup_iff).1 hn
  have h₁ := foldl_add_dict defs₁ MacroDefinitions.empty
    (fun s _ => rfl) hn
  have h₂ := foldl_add_dict defs₂ MacroDefinitions.empty
    (fun s _ => rfl) hn₂
  rw [empty_dict, List.nil_append] at h₁ h₂
  have hv : ∀ defs : List String,
      dictValues (defs.map fun s => (getName s, s)) = defs := by
    intro defs
    simp only [dictValues, List.map_map]
    exact List.map_id'' (fun s => rfl) defs
  rw [as_list_fst, as_list_fst, h₁, h₂, hv, hv]
  refine List.eq_of_perm_of_sorted ?_
    (List.sorted_insertionSort _ _) (List.sorted_insertionSort _ _)
  exact (List.perm_insertionSort _ _).trans
    (hp.trans (List.perm_insertionSort _ _).symm)

/-- Witness for C7: swapping the first two insertions of three
distinctly-named definitions leaves the emitted list unchanged. -/
theorem claim7_order_irrelevant_witness :
    ((applyUser MacroDefinitions.empty ["a=1", "c=2", "b=3"] []).as_list).1 =
      ((applyUser MacroDefinitions.empty ["c=2", "a=1", "b=3"] []).as_list).1 :=
  claim7_order_irrelevant ["a=1", "c=2", "b=3"] ["c=2", "a=1", "b=3"]
    (List.Perm.swap "c=2" "a=1" ["b=3"]) (by decide)

/-- C9: user `--define` strings are applied via `add` and `--undefine`
names via `remove` with no conflict check and no possibility of error;
every undefined name is absent from the final state and from the final
`as_list`; end to end, a dependency-supplied `DEBUG` removed by
`--undefine DEBUG` leaves no definition for `DEBUG`. -/
theorem claim9_user_overrides (d : MacroDefinitions)
    (defines undefines : List String) (h : Inv d) :
    (∀ n ∈ undefines,
      dictGet (applyUser d defines undefines).dict n = none
      ∧ ∀ s ∈ ((applyUser d defines undefines).as_list).1, getName s ≠ n)
    ∧ mergeDefines MacroDefinitions.empty ["DEBUG"] =
        .ok ⟨[("DEBUG", "DEBUG")]⟩
    ∧ ((applyUser (⟨[("DEBUG", "DEBUG")]⟩ : MacroDefinitions) []
        ["DEBUG"]).as_list).1 = [] := by
  refine ⟨?_, rfl, rfl⟩
  intro n hn
  have habs : dictGet (applyUser d defines undefines).dict n = none :=
    foldl_remove_mem_absent undefines (Inv_foldl_add defines h) n hn
  exact ⟨habs,
    absent_name_asList (Inv_applyUser h defines undefines) habs⟩

/-- Witness for C9: from an empty registry, `--define A=1` then
`--undefine A` leaves `A` undefined. -/
theorem claim9_user_overrides_witness :
    dictGet (applyUser MacroDefinitions.empty ["A=1"] ["A"]).dict "A" =
      none :=
  ((claim9_user_overrides MacroDefinitions.empty ["A=1"] ["A"]
    (by decide)).1 "A" (by decide)).1

theorem mergeDefines_nil (d : MacroDefinitions) :
    mergeDefines d [] = .ok d :=
  rfl

theorem mergeDefines_cons_none {d : MacroDefinitions} {x : String}
    (h : (d.add x).1 = none) (rest : List String) :
    mergeDefines d (x :: rest) = mergeDefines (d.add x).2 rest := by
  rw [mergeDefines_cons, h]

theorem mergeDefines_cons_eq {d : MacroDefinitions} {x : String}
    (h : (d.add x).1 = some x) (rest : List String) :
    mergeDefines d (x :: rest) = mergeDefines (d.add x).2 rest := by
  rw [mergeDefines_cons, h]
  simp

theorem mergeDefines_cons_conflict {d : MacroDefinitions} {x old : String}
    (h : (d.add x).1 = some old) (hne : old ≠ x) (rest : List String) :
    mergeDefines d (x :: rest) = .error (old, x) := by
  rw [mergeDefines_cons, h]
  simp [hne]

/-- C1: the dependency-merge loop feeds each definition to `add` in turn;
it raises the fatal conflict error exactly when some `add` returns a
previous value differing from the definition just added, the raised error
carries both conflicting definition strings, and a run with no such step
returns the registry obtained by just folding `add`. -/
theorem claim1_merge_conflict (d : MacroDefinitions) (defs : List String) :
    ((∃ e, mergeDefines d defs = .error e) ↔
      ∃ i, ∃ h : i < defs.length, ∃ p,
        ((applyUser d (defs.take i) []).add defs[i]).1 = some p
          ∧ p ≠ defs[i])
    ∧ (∀ p q, mergeDefines d defs = .error (p, q) →
        ∃ i, ∃ h : i < defs.length, defs[i] = q
          ∧ ((applyUser d (defs.take i) []).add q).1 = some p ∧ p ≠ q)
    ∧ (∀ d', mergeDefines d defs = .ok d' → d' = applyUser d defs []) := by
  induction defs generalizing d with
  | nil =>
    refine ⟨?_, ?_, ?_⟩
    · constructor
      · rintro ⟨e, he⟩
        exact absurd he (by simp [mergeDefines_nil])
      · rintro ⟨i, hi, -⟩
        exact absurd hi (Nat.not_lt_zero i)
    · intro p q hpq
      exact absurd hpq (by simp [mergeDefines_nil])
    · intro d' hd'
      have hd : d = d' := by simpa [mergeDefines_nil] using hd'
      rw [applyUser_nil_nil]
      exact hd.symm
  | cons x rest ih =>
    obtain ⟨ih₁, ih₂, ih₃⟩ := ih (d.add x).2
    rcases hadd : (d.add x).1 with _ | old
    · have hmg := mergeDefines_cons_none hadd rest
      refine ⟨?_, ?_, ?_⟩
      · rw [hmg, ih₁]
        constructor
        · rintro ⟨i, hi, p, hc, hne⟩
          refine ⟨i + 1, Nat.succ_lt_succ hi, p, ?_, ?_⟩
          · rw [List.take_succ_cons, applyUser_cons]
            simpa [List.getElem_cons_succ] using hc
          · simpa [List.getElem_cons_succ] using hne
        · rintro ⟨i, hi, p, hc, hne⟩
          cases i with
          | zero =>
            rw [List.take_zero, applyUser_nil_nil] at hc
            simp only [List.getElem_cons_zero] at hc
            rw [hadd] at hc
            exact absurd hc (by simp)
          | succ i =>
            refine ⟨i, Nat.lt_of_succ_lt_succ hi, p, ?_, ?_⟩
            · rw [List.take_succ_cons, applyUser_cons] at hc
              simpa [List.getElem_cons_succ] using hc
            · simpa [List.getElem_cons_succ] using hne
      · intro p q hpq
        rw [hmg] at hpq
        obtain ⟨i, hi, hq, hc, hne⟩ := ih₂ p q hpq
        refine ⟨i + 1, Nat.succ_lt_succ hi, ?_, ?_, hne⟩
        · simpa [List.getElem_cons_succ] using hq
        · rw [List.take_succ_cons, applyUser_cons]
          exact hc
      · intro d' hd'
        rw [hmg] at hd'
        rw [applyUser_cons]
        exact ih₃ d' hd'
    · by_cases hox : old = x
      · subst hox
        have hmg := mergeDefines_cons_eq hadd rest
        refine ⟨?_, ?_, ?_⟩
        · rw [hmg, ih₁]
          constructor
          · rintro ⟨i, hi, p, hc, hne⟩
            refine ⟨i + 1, Nat.succ_lt_succ hi, p, ?_, ?_⟩
            · rw [List.take_succ_cons, applyUser_cons]
              simpa [List.getElem_cons_succ] using hc
            · simpa [List.getElem_cons_succ] using hne
          · rintro ⟨i, hi, p, hc, hne⟩
            cases i with
            | zero =>
              rw [List.take_zero, applyUser_nil_nil] at hc
              simp only [List.getElem_cons_zero] at hc hne
              rw [hadd] at hc
              obtain rfl := Option.some.inj hc
              exact absurd rfl hne
            | succ i =>
              refine ⟨i, Nat.lt_of_succ_lt_succ hi, p, ?_, ?_⟩
              · rw [List.take_succ_cons, applyUser_cons] at hc
                simpa [List.getElem_cons_succ] using hc
              · simpa [List.getElem_cons_succ] using hne
        · intro p q hpq
          rw [hmg] at hpq
          obtain ⟨i, hi, hq, hc, hne⟩ := ih₂ p q hpq
          refine ⟨i + 1, Nat.succ_lt_succ hi, ?_, ?_, hne⟩
          · simpa [List.getElem_cons_succ] using hq
          · rw [List.take_succ_cons, applyUser_cons]
            exact hc
        · intro d' hd'
          rw [hmg] at hd'
          rw [applyUser_cons]
          exact ih₃ d' hd'
      · have hmg := mergeDefines_cons_conflict hadd hox rest
        refine ⟨?_, ?_, ?_⟩
        · constructor
          · intro _
            refine ⟨0, Nat.succ_pos rest.length, old, ?_, ?_⟩
            · rw [List.take_zero, applyUser_nil_nil]
              simpa [List.getElem_cons_zero] using hadd
            · simpa [List.getElem_cons_zero] using hox
          · intro _
            exact ⟨(old, x), hmg⟩
        · intro p q hpq
          rw [hmg] at hpq
          have hpq' : old = p ∧ x = q := by simpa using hpq
          obtain ⟨rfl, rfl⟩ := hpq'
          refine ⟨0, Nat.succ_pos rest.length, ?_, ?_, hox⟩
          · simp [List.getElem_cons_zero]
          · rw [List.take_zero, applyUser_nil_nil]
            exact hadd
        · intro d' hd'
          rw [hmg] at hd'
          exact absurd hd' (by simp)

/-- Witness for C1: two dependencies defining `X` with different values
make the merge raise the conflict error, and the conflict is exactly the
second `add` returning the differing first definition. -/
theorem claim1_merge_conflict_witness :
    ∃ i, ∃ h : i < (["X=1", "X=2"] : List String).length, ∃ p,
      ((applyUser MacroDefinitions.empty ((["X=1", "X=2"] :
          List String).take i) []).add (["X=1", "X=2"] : List String)[i]).1 =
        some p ∧ p ≠ (["X=1", "X=2"] : List String)[i] :=
  (claim1_merge_conflict MacroDefinitions.empty ["X=1", "X=2"]).1.1
    ⟨("X=1", "X=2"), rfl⟩

end VSConanInit
